import Mathlib

/-!
Verification of the pagination and tag-reconciliation logic of the
developer-resume-search repository (Go).

Part 1: shallow embedding of `utils.Paginate`
(src/internal/infrastructure/utils/pagination.go).

Go `int` is modelled as `Int`.  The Go source computes
`totalPages := int(math.Ceil(float64(totalItems) / float64(itemsPerPage)))`;
on the domain the specification considers (`totalItems ≥ 0`, `itemsPerPage ≥ 1`,
within float64's exact integer range) this equals the integer ceiling division
`(totalItems + itemsPerPage - 1) / itemsPerPage`, which is how it is embedded
here (Euclidean division, which agrees with Go division on the non-negative
operands involved).
-/

namespace DevSearch

/-- `utils.PaginationData` from pagination.go. -/
structure PaginationData where
  HasOtherPages : Bool
  HasPrevious : Bool
  HasNext : Bool
  PreviousPageNumber : Int
  NextPageNumber : Int
  CurrentPageNumber : Int
  TotalPages : Int
  CustomRange : List Int
  deriving Repr, DecidableEq

/-- `n` consecutive integers starting at `lo`. -/
def intRangeGo : Nat → Int → List Int
  | 0, _ => []
  | n + 1, lo => lo :: intRangeGo n (lo + 1)

/-- The list `[lo, lo+1, ..., hi]` (empty when `hi < lo`): the Go loop
`for i := startPage; i <= endPage; i++ { customRange = append(customRange, i) }`. -/
def intRange (lo hi : Int) : List Int :=
  intRangeGo (hi + 1 - lo).toNat lo

/-- Ceiling division, as computed by the Go source via `math.Ceil` on float64
(exact on the domain `totalItems ≥ 0`, `itemsPerPage ≥ 1` considered here). -/
def ceilDiv (a b : Int) : Int := (a + b - 1).ediv b

/-- The two clamping steps applied to the requested page number in
`utils.Paginate`: `if page < 1 { page = 1 }` and then
`if page > totalPages && totalPages > 0 { page = totalPages }`. -/
def clampPage (page totalPages : Int) : Int :=
  let p1 := if page < 1 then 1 else page
  if p1 > totalPages ∧ totalPages > 0 then totalPages else p1

/-- `startPage` as computed by `utils.Paginate` (clamp below at 1, then the
"ensure at least 5 pages" widening block). -/
def windowStart (page totalPages : Int) : Int :=
  let startPage := if page - 2 < 1 then 1 else page - 2
  let endPage := if page + 2 > totalPages then totalPages else page + 2
  if endPage - startPage + 1 < 5 ∧ totalPages ≥ 5 then
    (if startPage = 1 then startPage
     else if endPage = totalPages then totalPages - 4
     else startPage)
  else startPage

/-- `endPage` as computed by `utils.Paginate` (clamp above at `totalPages`,
then the "ensure at least 5 pages" widening block). -/
def windowEnd (page totalPages : Int) : Int :=
  let startPage := if page - 2 < 1 then 1 else page - 2
  let endPage := if page + 2 > totalPages then totalPages else page + 2
  if endPage - startPage + 1 < 5 ∧ totalPages ≥ 5 then
    (if startPage = 1 then (5 : Int) else endPage)
  else endPage

/-- `utils.Paginate` from pagination.go, with the requested page number
(`c.DefaultQuery("page", "1")` parsed by `strconv.Atoi`) passed in directly. -/
def Paginate (page totalItems itemsPerPage : Int) : PaginationData :=
  let totalPages := ceilDiv totalItems itemsPerPage
  let page2 := clampPage page totalPages
  { HasOtherPages := totalPages > 1
    HasPrevious := page2 > 1
    HasNext := page2 < totalPages
    PreviousPageNumber := page2 - 1
    NextPageNumber := page2 + 1
    CurrentPageNumber := page2
    TotalPages := totalPages
    CustomRange := intRange (windowStart page2 totalPages) (windowEnd page2 totalPages) }


/-! The page-number window as the specification words it, for comparison with
the window computed by the embedded code. -/

/-- From the spec: "Visible page window is `[currentPage-2, currentPage+2]`
intersected with `[1, totalPages]`." -/
def specWindowBase (currentPage totalPages : Int) : List Int :=
  (intRange (currentPage - 2) (currentPage + 2)).filter
    (fun x => decide (1 ≤ x ∧ x ≤ totalPages))

/-- From the spec: "If the resulting window has fewer than 5 entries and
`totalPages >= 5`, widen it: if the window starts at 1, extend the end to 5;
else if the window ends at `totalPages`, push the start back to `totalPages-4`." -/
def specWindow (currentPage totalPages : Int) : List Int :=
  if (specWindowBase currentPage totalPages).length < 5 ∧ 5 ≤ totalPages then
    (if (specWindowBase currentPage totalPages).head? = some 1 then intRange 1 5
     else if (specWindowBase currentPage totalPages).getLast? = some totalPages then
       intRange (totalPages - 4) totalPages
     else specWindowBase currentPage totalPages)
  else specWindowBase currentPage totalPages

/-!
Part 2: shallow embedding of the project/tag use-case layer
(src/internal/application/project_usecase.go) over the GORM repository
(`GormProjectRepository` — FindOrCreateTag, AssociateTagWithProject,
ClearProjectTags, CreateProject, UpdateProject) and the tag parsing of the
HTTP handlers (src/internal/interfaces/http/project_handlers.go).

The relational store is modelled explicitly:
* `tags` — the `tags` table rows in insertion order (`FirstOrCreate` issues
  `SELECT ... WHERE name = ?` and returns the first matching row, inserting a
  new row only when none matches; the schema in domain/models.go declares NO
  uniqueness constraint on `tags.name`);
* `assocs` — the `project_tags` many-to-many join rows as
  (projectID, tagID) pairs; GORM's `Association("Tags").Append` inserts a join
  row only if absent, `Association("Tags").Clear` deletes only join rows;
* `projects` — the project ids present in the `projects` table;
* `nextId` — fresh tag-id source (uuids in the source, modelled as naturals);
* `log` — the sequence of repository calls issued, used to express which
  tag operations a flow performs.

Database fallibility is modelled by an oracle deciding, from a call's
arguments and the state at call time (which includes the full call log, so
arbitrary per-invocation failure patterns are expressible), whether that
repository call reports an error.
-/

/-- `domain.Tag` (id plus exact-match name). -/
structure Tag where
  id : Nat
  name : String
  deriving Repr, DecidableEq

/-- A repository call, as recorded in the call log. -/
inductive Event where
  | createProj (p : Nat)
  | updateProj (p : Nat)
  | clearTags (p : Nat)
  | findOrCreate (name : String)
  | associate (p tid : Nat)
  deriving Repr, DecidableEq

/-- The backing store. -/
structure RepoState where
  tags : List Tag
  assocs : List (Nat × Nat)
  projects : List Nat
  nextId : Nat
  log : List Event
  deriving Repr, DecidableEq

abbrev Err := String

/-- Failure oracle for the repository calls. -/
structure Oracle where
  createProjectErr : Nat → RepoState → Option Err
  updateProjectErr : Nat → RepoState → Option Err
  clearErr : Nat → RepoState → Option Err
  findOrCreateErr : String → RepoState → Option Err
  associateErr : Nat → Nat → RepoState → Option Err

/-- The all-successful oracle. -/
def noFailOracle : Oracle :=
  { createProjectErr := fun _ _ => none
    updateProjectErr := fun _ _ => none
    clearErr := fun _ _ => none
    findOrCreateErr := fun _ _ => none
    associateErr := fun _ _ _ => none }

def emptyState : RepoState := { tags := [], assocs := [], projects := [], nextId := 0, log := [] }

namespace GormProjectRepository

/-- `GormProjectRepository.FindOrCreateTag`:
`DB.Where("name = ?", tagName).FirstOrCreate(&tag, domain.Tag{Name: tagName})`. -/
def FindOrCreateTag (o : Oracle) (tagName : String) (s : RepoState) :
    Option Tag × RepoState :=
  let s1 := { s with log := s.log ++ [Event.findOrCreate tagName] }
  match o.findOrCreateErr tagName s with
  | some _ => (none, s1)
  | none =>
    match s1.tags.find? (fun t => t.name == tagName) with
    | some t => (some t, s1)
    | none =>
      (some ⟨s1.nextId, tagName⟩,
        { s1 with
          tags := s1.tags ++ [⟨s1.nextId, tagName⟩]
          nextId := s1.nextId + 1 })

/-- `GormProjectRepository.AssociateTagWithProject`:
`DB.Model(project).Association("Tags").Append(tag)` (a no-op when the join row
already exists). -/
def AssociateTagWithProject (o : Oracle) (p : Nat) (t : Tag) (s : RepoState) :
    Bool × RepoState :=
  let s1 := { s with log := s.log ++ [Event.associate p t.id] }
  match o.associateErr p t.id s with
  | some _ => (false, s1)
  | none =>
    if (p, t.id) ∈ s1.assocs then (true, s1)
    else (true, { s1 with assocs := s1.assocs ++ [(p, t.id)] })

/-- `GormProjectRepository.ClearProjectTags`:
`DB.Model(project).Association("Tags").Clear()` — removes join rows only. -/
def ClearProjectTags (o : Oracle) (p : Nat) (s : RepoState) : Bool × RepoState :=
  let s1 := { s with log := s.log ++ [Event.clearTags p] }
  match o.clearErr p s with
  | some _ => (false, s1)
  | none => (true, { s1 with assocs := s1.assocs.filter (fun a => a.1 != p) })

/-- `GormProjectRepository.CreateProject`: `DB.Create(project)`. -/
def CreateProject (o : Oracle) (p : Nat) (s : RepoState) : Option Err × RepoState :=
  let s1 := { s with log := s.log ++ [Event.createProj p] }
  match o.createProjectErr p s with
  | some e => (some e, s1)
  | none => (none, { s1 with projects := s1.projects ++ [p] })

/-- `GormProjectRepository.UpdateProject`: `DB.Save(project)` (upsert). -/
def UpdateProject (o : Oracle) (p : Nat) (s : RepoState) : Option Err × RepoState :=
  let s1 := { s with log := s.log ++ [Event.updateProj p] }
  match o.updateProjectErr p s with
  | some e => (some e, s1)
  | none =>
    (none, { s1 with
      projects := if p ∈ s1.projects then s1.projects else s1.projects ++ [p] })

end GormProjectRepository

/-- The per-tag loop shared verbatim by `ProjectUseCase.CreateProject` and
`ProjectUseCase.UpdateProject`: for each name, find-or-create the tag and
associate it with the project; on either error, log and `continue` with the
remaining names. -/
def tagLoop (o : Oracle) (p : Nat) : List String → RepoState → RepoState
  | [], s => s
  | n :: ns, s =>
    match GormProjectRepository.FindOrCreateTag o n s with
    | (none, s1) => tagLoop o p ns s1
    | (some t, s1) =>
      tagLoop o p ns (GormProjectRepository.AssociateTagWithProject o p t s1).2

namespace ProjectUseCase

/-- `ProjectUseCase.CreateProject`: persist the project, then run the tag
loop; a failing `CreateProject` repository call is returned immediately. -/
def CreateProject (o : Oracle) (p : Nat) (tagNames : List String) (s : RepoState) :
    Option Err × RepoState :=
  match GormProjectRepository.CreateProject o p s with
  | (some e, s1) => (some e, s1)
  | (none, s1) => (none, tagLoop o p tagNames s1)

/-- `ProjectUseCase.UpdateProject`: clear existing tag associations (error
logged and ignored), save the project (a failure is returned), then run the
tag loop. -/
def UpdateProject (o : Oracle) (p : Nat) (tagNames : List String) (s : RepoState) :
    Option Err × RepoState :=
  let s1 := (GormProjectRepository.ClearProjectTags o p s).2
  match GormProjectRepository.UpdateProject o p s1 with
  | (some e, s2) => (some e, s2)
  | (none, s2) => (none, tagLoop o p tagNames s2)

end ProjectUseCase

/-- Go's `strings.Split(s, ",")` on the character level: split at every comma,
keeping empty pieces (splitting the empty string yields one empty piece). -/
def splitCommaChars : List Char → List (List Char)
  | [] => [[]]
  | c :: cs =>
    match splitCommaChars cs with
    | [] => [[]]
    | g :: gs => if c = ',' then [] :: g :: gs else (c :: g) :: gs

/-- `Handler.CreateProject` / `Handler.UpdateProject` tag parsing
(project_handlers.go lines 151 and 251): `tagNames := strings.Split(tagsStr, ",")`. -/
def splitTagNames (tagsStr : String) : List String :=
  (splitCommaChars tagsStr.data).map (fun l => String.mk l)

namespace Handler

/-- The tag-relevant steps of `Handler.CreateProject`: split the `tags` form
field on commas and hand the pieces to the use case. -/
def CreateProject (o : Oracle) (p : Nat) (tagsStr : String) (s : RepoState) :
    Option Err × RepoState :=
  ProjectUseCase.CreateProject o p (splitTagNames tagsStr) s

end Handler

/-- Modelled from the spec: "Input `tagNames` is a comma-separated free-text
field split into individual trimmed candidate names; empty candidates are
silently skipped."  (Trimming is modelled as removing surrounding spaces.) -/
def specSplitTagNames (tagsStr : String) : List String :=
  ((splitCommaChars tagsStr.data).map
      (fun l => String.mk ((l.dropWhile (· = ' ')).reverse.dropWhile (· = ' ')).reverse)).filter
    (fun n => n != "")

/-! Store invariants used to reason about tag reconciliation. -/

/-- Well-formedness of the tag table: ids are below the fresh-id counter and
pairwise distinct.  This holds for every store reachable from an empty one. -/
def TagsWF (s : RepoState) : Prop :=
  (∀ t ∈ s.tags, t.id < s.nextId) ∧ (s.tags.map Tag.id).Nodup

/-- `t` is the canonical row for its name: the first row
`SELECT ... WHERE name = ?` returns. -/
def canonIn (tags : List Tag) (t : Tag) : Prop :=
  tags.find? (fun u => u.name == t.name) = some t

/-- Every tag associated with project `p` is a canonical row. -/
def CanonAssocs (s : RepoState) (p : Nat) : Prop :=
  ∀ tid, (p, tid) ∈ s.assocs → ∃ t, canonIn s.tags t ∧ t.id = tid

/-- The names of the tags associated with project `p`. -/
def projTagNames (s : RepoState) (p : Nat) : List String :=
  (s.tags.filter (fun t => decide ((p, t.id) ∈ s.assocs))).map Tag.name

/-! The storage-level steps of `FirstOrCreate` (a `SELECT` statement followed,
when it finds nothing, by an `INSERT` statement), exposed separately so that an
interleaving of two concurrent calls can be expressed. -/

/-- The `SELECT ... WHERE name = ? LIMIT 1` step of `FirstOrCreate`. -/
def findTagStep (n : String) (s : RepoState) : Option Tag :=
  s.tags.find? (fun t => t.name == n)

/-- The `INSERT` step of `FirstOrCreate` (the schema in domain/models.go
declares no uniqueness constraint on `tags.name`, so the insert succeeds even
when a row with this name already exists). -/
def insertTagStep (n : String) (s : RepoState) : RepoState :=
  { s with tags := s.tags ++ [⟨s.nextId, n⟩], nextId := s.nextId + 1 }

/-- Two concurrent `FindOrCreateTag(n)` calls, interleaved so that both
`SELECT`s execute before either `INSERT` (possible because the two statements
of `FirstOrCreate` are not atomic and no storage-layer uniqueness constraint
exists for tag names). -/
def racedFindOrCreate (n : String) (s : RepoState) : RepoState :=
  let rA := findTagStep n s
  let rB := findTagStep n s
  let s1 := if rA = none then insertTagStep n s else s
  if rB = none then insertTagStep n s1 else s1

/-- How many rows of the tag table carry name `n`. -/
def countTagsNamed (s : RepoState) (n : String) : Nat :=
  (s.tags.filter (fun t => t.name == n)).length

/-! Concrete oracles and states used to instantiate the theorems. -/

/-- An oracle whose only failure is the find-or-create of the tag named
"go". -/
def goFailOracle : Oracle :=
  { noFailOracle with
    findOrCreateErr := fun n _ => if n = "go" then some "db error" else none }

/-- An oracle on which persisting a project always fails. -/
def createFailOracle : Oracle :=
  { noFailOracle with createProjectErr := fun _ _ => some "db down" }

/-- A store holding one project (id 1) associated with one tag ("go"). -/
def sampleState : RepoState :=
  { tags := [⟨5, "go"⟩], assocs := [(1, 5)], projects := [1], nextId := 6, log := [] }
/-! Basic facts about `intRange`. -/

theorem mem_intRangeGo {x : Int} {n : Nat} {lo : Int} :
    x ∈ intRangeGo n lo ↔ lo ≤ x ∧ x < lo + n := by
  induction n generalizing lo with
  | zero => simp [intRangeGo]
  | succ n ih =>
    simp only [intRangeGo, List.mem_cons, ih]
    push_cast
    omega

theorem mem_intRange {x lo hi : Int} : x ∈ intRange lo hi ↔ lo ≤ x ∧ x ≤ hi := by
  rw [intRange, mem_intRangeGo]
  omega

theorem intRange_eq_nil {lo hi : Int} (h : hi < lo) : intRange lo hi = [] := by
  rw [intRange]
  have : (hi + 1 - lo).toNat = 0 := by omega
  rw [this]
  rfl

theorem intRangeGo_chain (n : Nat) (lo : Int) :
    List.Chain' (fun a b => b = a + 1) (intRangeGo n lo) := by
  induction n generalizing lo with
  | zero => exact List.chain'_nil
  | succ n ih =>
    rw [intRangeGo, List.chain'_cons']
    refine ⟨?_, ih (lo + 1)⟩
    intro y hy
    cases n with
    | zero => simp [intRangeGo] at hy
    | succ m => simp [intRangeGo] at hy; omega

theorem intRange_chain (lo hi : Int) :
    List.Chain' (fun a b => b = a + 1) (intRange lo hi) :=
  intRangeGo_chain _ _

theorem intRangeGo_pairwise (n : Nat) (lo : Int) :
    List.Pairwise (· < ·) (intRangeGo n lo) := by
  induction n generalizing lo with
  | zero => exact List.Pairwise.nil
  | succ n ih =>
    rw [intRangeGo, List.pairwise_cons]
    refine ⟨?_, ih (lo + 1)⟩
    intro x hx
    rw [mem_intRangeGo] at hx
    omega

theorem intRange_pairwise (lo hi : Int) : List.Pairwise (· < ·) (intRange lo hi) :=
  intRangeGo_pairwise _ _

theorem intRange_nodup (lo hi : Int) : (intRange lo hi).Nodup :=
  (intRange_pairwise lo hi).imp ne_of_lt

theorem intRange_length (lo hi : Int) : (intRange lo hi).length = (hi + 1 - lo).toNat := by
  rw [intRange]
  generalize (hi + 1 - lo).toNat = n
  induction n generalizing lo with
  | zero => rfl
  | succ n ih => simp [intRangeGo, ih]

theorem intRange_head (lo hi : Int) :
    (intRange lo hi).head? = if hi < lo then none else some lo := by
  rw [intRange]
  split_ifs with h
  · have : (hi + 1 - lo).toNat = 0 := by omega
    rw [this]; rfl
  · obtain ⟨n, hn⟩ : ∃ n, (hi + 1 - lo).toNat = n + 1 := ⟨(hi - lo).toNat, by omega⟩
    rw [hn]; rfl

theorem intRangeGo_getLast (n : Nat) (lo : Int) :
    (intRangeGo (n + 1) lo).getLast? = some (lo + n) := by
  induction n generalizing lo with
  | zero => simp [intRangeGo]
  | succ n ih =>
    rw [show intRangeGo (n + 1 + 1) lo = lo :: intRangeGo (n + 1) (lo + 1) from rfl]
    rw [show intRangeGo (n + 1) (lo + 1) = (lo + 1) :: intRangeGo n (lo + 1 + 1) from rfl]
    rw [List.getLast?_cons_cons]
    rw [show (lo + 1) :: intRangeGo n (lo + 1 + 1) = intRangeGo (n + 1) (lo + 1) from rfl]
    rw [ih (lo + 1)]
    congr 1
    push_cast
    ring

theorem intRange_getLast (lo hi : Int) :
    (intRange lo hi).getLast? = if hi < lo then none else some hi := by
  rw [intRange]
  split_ifs with h
  · have : (hi + 1 - lo).toNat = 0 := by omega
    rw [this]; rfl
  · obtain ⟨n, hn⟩ : ∃ n, (hi + 1 - lo).toNat = n + 1 := ⟨(hi - lo).toNat, by omega⟩
    rw [hn, intRangeGo_getLast]
    congr 1
    omega

/-- A sorted list of integers whose membership is exactly an interval is that
interval's enumeration. -/
theorem eq_intRange_of_sorted_mem {l : List Int} (hl : List.Pairwise (· < ·) l)
    {s e : Int} (h : ∀ x, x ∈ l ↔ s ≤ x ∧ x ≤ e) : l = intRange s e := by
  apply List.eq_of_perm_of_sorted (r := (· < ·)) ?_ hl (intRange_pairwise s e)
  rw [List.perm_ext_iff_of_nodup (hl.imp ne_of_lt) (intRange_nodup s e)]
  intro a
  rw [h a, mem_intRange]

/-! Facts about `ceilDiv`. -/

theorem ceilDiv_bounds {a b : Int} (ha : 0 ≤ a) (hb : 1 ≤ b) :
    b * (ceilDiv a b - 1) < a ∧ a ≤ b * ceilDiv a b := by
  have hq : ceilDiv a b = (a + b - 1) / b := rfl
  rw [hq]
  have hmod := Int.ediv_add_emod (a + b - 1) b
  have h1 : 0 ≤ (a + b - 1) % b := Int.emod_nonneg _ (by omega)
  have h2 : (a + b - 1) % b < b := Int.emod_lt_of_pos _ (by omega)
  set q := (a + b - 1) / b
  set r := (a + b - 1) % b
  have hexp : b * (q - 1) = b * q - b := by ring
  constructor <;> omega

theorem ceilDiv_nonneg {a b : Int} (ha : 0 ≤ a) (hb : 1 ≤ b) : 0 ≤ ceilDiv a b := by
  rcases ceilDiv_bounds ha hb with ⟨h1, h2⟩
  by_contra h
  push_neg at h
  nlinarith [mul_pos (show (0 : Int) < b by omega) (show 0 < -ceilDiv a b by omega)]

theorem ceilDiv_eq_ceil {a b : Int} (ha : 0 ≤ a) (hb : 1 ≤ b) :
    ceilDiv a b = ⌈(a : ℚ) / (b : ℚ)⌉ := by
  symm
  rw [Int.ceil_eq_iff]
  have hbq : (0 : ℚ) < (b : ℚ) := by exact_mod_cast (by omega : (0 : Int) < b)
  rcases ceilDiv_bounds ha hb with ⟨h1, h2⟩
  constructor
  · rw [lt_div_iff₀ hbq]
    have : ((b : ℚ)) * ((ceilDiv a b : ℚ) - 1) < (a : ℚ) := by exact_mod_cast h1
    nlinarith
  · rw [div_le_iff₀ hbq]
    have : (a : ℚ) ≤ (b : ℚ) * (ceilDiv a b : ℚ) := by exact_mod_cast h2
    nlinarith

theorem ceilDiv_zero_of_zero {b : Int} (hb : 1 ≤ b) : ceilDiv 0 b = 0 := by
  rcases ceilDiv_bounds (le_refl 0) hb with ⟨h1, h2⟩
  by_contra h
  rcases lt_or_gt_of_ne h with hlt | hgt
  · nlinarith [mul_pos (show (0 : Int) < b by omega) (show 0 < -ceilDiv 0 b by omega)]
  · nlinarith [mul_nonneg (show (0 : Int) ≤ b by omega)
      (show 0 ≤ ceilDiv 0 b - 1 by omega)]

/-! Projection lemmas for `Paginate`. -/

theorem Paginate_totalPages_def (page ti ps : Int) :
    (Paginate page ti ps).TotalPages = ceilDiv ti ps := rfl

theorem Paginate_currentPage_def (page ti ps : Int) :
    (Paginate page ti ps).CurrentPageNumber = clampPage page (ceilDiv ti ps) := rfl

theorem Paginate_customRange_def (page ti ps : Int) :
    (Paginate page ti ps).CustomRange =
      intRange (windowStart (clampPage page (ceilDiv ti ps)) (ceilDiv ti ps))
        (windowEnd (clampPage page (ceilDiv ti ps)) (ceilDiv ti ps)) := rfl

/-! Facts about the clamping and window-bound computations. -/

theorem clampPage_pos (page tp : Int) : 1 ≤ clampPage page tp := by
  unfold clampPage
  dsimp only
  split_ifs <;> omega

theorem clampPage_le {page tp : Int} (h : 1 ≤ tp) : clampPage page tp ≤ tp := by
  unfold clampPage
  dsimp only
  split_ifs <;> omega

theorem clampPage_of_totalPages_nonpos {page tp : Int} (h : tp ≤ 0) :
    clampPage page tp = max page 1 := by
  unfold clampPage
  dsimp only
  split_ifs <;> omega

theorem windowStart_pos (p tp : Int) : 1 ≤ windowStart p tp := by
  unfold windowStart
  dsimp only
  split_ifs <;> omega

theorem windowEnd_le (p tp : Int) : windowEnd p tp ≤ tp := by
  unfold windowEnd
  dsimp only
  split_ifs <;> omega

theorem specWindowBase_eq (p tp : Int) :
    specWindowBase p tp =
      intRange (if p - 2 < 1 then 1 else p - 2) (if p + 2 > tp then tp else p + 2) := by
  apply eq_intRange_of_sorted_mem ((intRange_pairwise _ _).filter _)
  intro x
  rw [List.mem_filter, mem_intRange]
  simp only [decide_eq_true_iff]
  split_ifs <;> omega

/-- On clamped current pages, the spec's window description coincides with the
window bounds computed by the code. -/
theorem specWindow_eq_windowBounds (p tp : Int) (hp : 1 ≤ p) (hple : 1 ≤ tp → p ≤ tp) :
    specWindow p tp = intRange (windowStart p tp) (windowEnd p tp) := by
  unfold specWindow windowStart windowEnd
  rw [specWindowBase_eq, intRange_length, intRange_head, intRange_getLast]
  dsimp only
  split_ifs <;>
    first
      | rfl
      | (congr 1 <;> omega)
      | omega
      | (exfalso; omega)
      | simp_all

/-! Claim theorems about `Paginate`. -/

/-- C1, counterexample: with `totalItems = 0` (so `totalPages = 0`),
`pageSize = 1` and requested page `2`, `Paginate` returns
`CurrentPageNumber = 2`, which lies outside `[1, max(totalPages, 1)] = [1, 1]`:
the `page > totalPages` clamp is skipped when `totalPages = 0`. -/
theorem paginate_currentPage_counterexample :
    (Paginate 2 0 1).TotalPages = 0 ∧
    (Paginate 2 0 1).CurrentPageNumber = 2 ∧
    ¬((Paginate 2 0 1).CurrentPageNumber ≤ max (Paginate 2 0 1).TotalPages 1) := by
  decide

/-- C1 (amended): `Paginate` always returns `CurrentPageNumber ≥ 1`, and when
`totalPages ≥ 1` also `CurrentPageNumber ≤ totalPages`; but when
`totalPages ≤ 0` the requested page is only clamped from below, so
`CurrentPageNumber = max(requestedPage, 1)`, which may exceed 1. -/
theorem paginate_currentPage_range (page totalItems itemsPerPage : Int) :
    1 ≤ (Paginate page totalItems itemsPerPage).CurrentPageNumber ∧
    (1 ≤ (Paginate page totalItems itemsPerPage).TotalPages →
      (Paginate page totalItems itemsPerPage).CurrentPageNumber ≤
        (Paginate page totalItems itemsPerPage).TotalPages) ∧
    ((Paginate page totalItems itemsPerPage).TotalPages ≤ 0 →
      (Paginate page totalItems itemsPerPage).CurrentPageNumber = max page 1) := by
  rw [Paginate_currentPage_def, Paginate_totalPages_def]
  exact ⟨clampPage_pos _ _, fun h => clampPage_le h,
    fun h => clampPage_of_totalPages_nonpos h⟩

/-- C1 (amended), witness at page 7, totalItems 20, pageSize 10. -/
theorem paginate_currentPage_range_witness :
    1 ≤ (Paginate 7 20 10).CurrentPageNumber ∧
    (1 ≤ (Paginate 7 20 10).TotalPages →
      (Paginate 7 20 10).CurrentPageNumber ≤ (Paginate 7 20 10).TotalPages) ∧
    ((Paginate 7 20 10).TotalPages ≤ 0 →
      (Paginate 7 20 10).CurrentPageNumber = max 7 1) :=
  paginate_currentPage_range 7 20 10

/-- C4: for `totalItems ≥ 0` and `pageSize ≥ 1`, `Paginate` computes
`totalPages = ⌈totalItems / pageSize⌉` (0 when `totalItems = 0`), and its
`CustomRange` is exactly the spec's visible page window: `[cp-2, cp+2]`
intersected with `[1, totalPages]`, widened to 5 entries when possible. -/
theorem paginate_totalPages_and_window (page totalItems itemsPerPage : Int)
    (hti : 0 ≤ totalItems) (hps : 1 ≤ itemsPerPage) :
    (Paginate page totalItems itemsPerPage).TotalPages =
      ⌈(totalItems : ℚ) / (itemsPerPage : ℚ)⌉ ∧
    (totalItems = 0 → (Paginate page totalItems itemsPerPage).TotalPages = 0) ∧
    (Paginate page totalItems itemsPerPage).CustomRange =
      specWindow (Paginate page totalItems itemsPerPage).CurrentPageNumber
        (Paginate page totalItems itemsPerPage).TotalPages := by
  refine ⟨?_, ?_, ?_⟩
  · rw [Paginate_totalPages_def]
    exact ceilDiv_eq_ceil hti hps
  · intro h
    subst h
    rw [Paginate_totalPages_def]
    exact ceilDiv_zero_of_zero hps
  · rw [Paginate_customRange_def, Paginate_currentPage_def, Paginate_totalPages_def]
    exact (specWindow_eq_windowBounds _ _ (clampPage_pos _ _)
      (fun h => clampPage_le h)).symm

/-- C4, witness at page 3, totalItems 100, pageSize 10 (the spec's own
example: `totalPages = 10`, window `[1..5]` widened per rule). -/
theorem paginate_totalPages_and_window_witness :
    (0 : Int) ≤ 100 ∧ (1 : Int) ≤ 10 ∧
    ((Paginate 3 100 10).TotalPages = ⌈(100 : ℚ) / (10 : ℚ)⌉ ∧
      ((100 : Int) = 0 → (Paginate 3 100 10).TotalPages = 0) ∧
      (Paginate 3 100 10).CustomRange =
        specWindow (Paginate 3 100 10).CurrentPageNumber
          (Paginate 3 100 10).TotalPages) :=
  ⟨by norm_num, by norm_num, paginate_totalPages_and_window 3 100 10 (by norm_num)
    (by norm_num)⟩

/-- C8: the output flags satisfy `hasOtherPages = totalPages > 1`,
`hasPrevious = currentPage > 1`, `hasNext = currentPage < totalPages`, and the
previous/next page numbers are `currentPage ∓ 1` without clamping; moreover
`Paginate` at page 1, 0 items, page size 3 yields `totalPages = 0`,
`hasOtherPages = false` and an empty window. -/
theorem paginate_flags (page totalItems itemsPerPage : Int) :
    ((Paginate page totalItems itemsPerPage).HasOtherPages ↔
      1 < (Paginate page totalItems itemsPerPage).TotalPages) ∧
    ((Paginate page totalItems itemsPerPage).HasPrevious ↔
      1 < (Paginate page totalItems itemsPerPage).CurrentPageNumber) ∧
    ((Paginate page totalItems itemsPerPage).HasNext ↔
      (Paginate page totalItems itemsPerPage).CurrentPageNumber <
        (Paginate page totalItems itemsPerPage).TotalPages) ∧
    (Paginate page totalItems itemsPerPage).PreviousPageNumber =
      (Paginate page totalItems itemsPerPage).CurrentPageNumber - 1 ∧
    (Paginate page totalItems itemsPerPage).NextPageNumber =
      (Paginate page totalItems itemsPerPage).CurrentPageNumber + 1 ∧
    Paginate 1 0 3 =
      { HasOtherPages := false, HasPrevious := false, HasNext := false,
        PreviousPageNumber := 0, NextPageNumber := 2, CurrentPageNumber := 1,
        TotalPages := 0, CustomRange := [] } := by
  refine ⟨?_, ?_, ?_, rfl, rfl, by decide⟩
  · rw [show (Paginate page totalItems itemsPerPage).HasOtherPages =
      decide (1 < (Paginate page totalItems itemsPerPage).TotalPages) from rfl]
    exact decide_eq_true_iff
  · rw [show (Paginate page totalItems itemsPerPage).HasPrevious =
      decide (1 < (Paginate page totalItems itemsPerPage).CurrentPageNumber) from rfl]
    exact decide_eq_true_iff
  · rw [show (Paginate page totalItems itemsPerPage).HasNext =
      decide ((Paginate page totalItems itemsPerPage).CurrentPageNumber <
        (Paginate page totalItems itemsPerPage).TotalPages) from rfl]
    exact decide_eq_true_iff

/-- C10: the custom range is a run of consecutive integers (hence strictly
increasing), every entry lies in `[1, totalPages]`, and the range is empty
whenever `totalPages = 0`. -/
theorem paginate_customRange_invariants (page totalItems itemsPerPage : Int)
    (hti : 0 ≤ totalItems) (hps : 1 ≤ itemsPerPage) :
    List.Chain' (fun a b => b = a + 1)
      (Paginate page totalItems itemsPerPage).CustomRange ∧
    (∀ x ∈ (Paginate page totalItems itemsPerPage).CustomRange,
      1 ≤ x ∧ x ≤ (Paginate page totalItems itemsPerPage).TotalPages) ∧
    ((Paginate page totalItems itemsPerPage).TotalPages = 0 →
      (Paginate page totalItems itemsPerPage).CustomRange = []) := by
  rw [Paginate_customRange_def, Paginate_totalPages_def]
  refine ⟨intRange_chain _ _, ?_, ?_⟩
  · intro x hx
    rw [mem_intRange] at hx
    have h1 := windowStart_pos (clampPage page (ceilDiv totalItems itemsPerPage))
      (ceilDiv totalItems itemsPerPage)
    have h2 := windowEnd_le (clampPage page (ceilDiv totalItems itemsPerPage))
      (ceilDiv totalItems itemsPerPage)
    omega
  · intro h
    apply intRange_eq_nil
    have h1 := windowStart_pos (clampPage page (ceilDiv totalItems itemsPerPage))
      (ceilDiv totalItems itemsPerPage)
    have h2 := windowEnd_le (clampPage page (ceilDiv totalItems itemsPerPage))
      (ceilDiv totalItems itemsPerPage)
    omega

/-- C10, witness at page 3, totalItems 100, pageSize 10. -/
theorem paginate_customRange_invariants_witness :
    (0 : Int) ≤ 100 ∧ (1 : Int) ≤ 10 ∧
    (List.Chain' (fun a b => b = a + 1) (Paginate 3 100 10).CustomRange ∧
      (∀ x ∈ (Paginate 3 100 10).CustomRange,
        1 ≤ x ∧ x ≤ (Paginate 3 100 10).TotalPages) ∧
      ((Paginate 3 100 10).TotalPages = 0 →
        (Paginate 3 100 10).CustomRange = [])) :=
  ⟨by norm_num, by norm_num,
    paginate_customRange_invariants 3 100 10 (by norm_num) (by norm_num)⟩


/-! Lemmas about the repository operations. -/

open GormProjectRepository

theorem canonIn_append {tags : List Tag} {t : Tag} (l : List Tag)
    (h : canonIn tags t) : canonIn (tags ++ l) t := by
  unfold canonIn at *
  rw [List.find?_append, h]
  rfl

theorem findOrCreateTag_tags_sub (o : Oracle) (n : String) (s : RepoState) :
    ∃ l, (FindOrCreateTag o n s).2.tags = s.tags ++ l := by
  unfold FindOrCreateTag
  dsimp only
  split
  · exact ⟨[], (List.append_nil _).symm⟩
  · split
    · exact ⟨[], (List.append_nil _).symm⟩
    · exact ⟨[⟨s.nextId, n⟩], rfl⟩

theorem findOrCreateTag_assocs (o : Oracle) (n : String) (s : RepoState) :
    (FindOrCreateTag o n s).2.assocs = s.assocs := by
  unfold FindOrCreateTag
  dsimp only
  split
  · rfl
  · split <;> rfl

theorem findOrCreateTag_log (o : Oracle) (n : String) (s : RepoState) :
    (FindOrCreateTag o n s).2.log = s.log ++ [Event.findOrCreate n] := by
  unfold FindOrCreateTag
  dsimp only
  split
  · rfl
  · split <;> rfl

theorem findOrCreateTag_wf {o : Oracle} {n : String} {s : RepoState}
    (hwf : TagsWF s) : TagsWF (FindOrCreateTag o n s).2 := by
  obtain ⟨hlt, hnd⟩ := hwf
  unfold FindOrCreateTag
  dsimp only
  split
  · exact ⟨hlt, hnd⟩
  · split
    · exact ⟨hlt, hnd⟩
    · constructor
      · intro t ht
        rcases List.mem_append.mp ht with h | h
        · exact Nat.lt_succ_of_lt (hlt t h)
        · simp at h
          subst h
          exact Nat.lt_succ_self _
      · rw [List.map_append, List.nodup_append]
        refine ⟨hnd, by simp, ?_⟩
        intro a ha hb
        simp at hb
        rcases List.mem_map.mp ha with ⟨t, ht, rfl⟩
        exact absurd (hlt t ht) (by omega)

theorem findOrCreateTag_some_canon {o : Oracle} {n : String} {s : RepoState} {t : Tag}
    (h : (FindOrCreateTag o n s).1 = some t) :
    t.name = n ∧ canonIn (FindOrCreateTag o n s).2.tags t := by
  revert h
  unfold FindOrCreateTag
  dsimp only
  split
  · intro h
    exact absurd h (by simp)
  · split
    · rename_i t' hfind
      intro h
      have ht : t' = t := Option.some_inj.mp h
      subst ht
      have hname : t'.name = n := by
        have := List.find?_some hfind
        simpa using this
      refine ⟨hname, ?_⟩
      unfold canonIn
      rw [hname]
      exact hfind
    · rename_i hfind
      intro h
      rw [Option.some_inj] at h
      subst h
      refine ⟨rfl, ?_⟩
      unfold canonIn
      dsimp only
      rw [List.find?_append, hfind]
      simp

theorem findOrCreateTag_canon_stable {o : Oracle} {n : String} {s : RepoState} {t : Tag}
    (h : canonIn s.tags t) : canonIn (FindOrCreateTag o n s).2.tags t := by
  obtain ⟨l, hl⟩ := findOrCreateTag_tags_sub o n s
  rw [hl]
  exact canonIn_append l h

theorem associate_tags (o : Oracle) (p : Nat) (t : Tag) (s : RepoState) :
    (AssociateTagWithProject o p t s).2.tags = s.tags := by
  unfold AssociateTagWithProject
  dsimp only
  split
  · rfl
  · split <;> rfl

theorem associate_nextId (o : Oracle) (p : Nat) (t : Tag) (s : RepoState) :
    (AssociateTagWithProject o p t s).2.nextId = s.nextId := by
  unfold AssociateTagWithProject
  dsimp only
  split
  · rfl
  · split <;> rfl

theorem associate_log (o : Oracle) (p : Nat) (t : Tag) (s : RepoState) :
    (AssociateTagWithProject o p t s).2.log = s.log ++ [Event.associate p t.id] := by
  unfold AssociateTagWithProject
  dsimp only
  split
  · rfl
  · split <;> rfl

theorem associate_assocs_sub {o : Oracle} {p : Nat} {t : Tag} {s : RepoState}
    {q tid : Nat} (h : (q, tid) ∈ (AssociateTagWithProject o p t s).2.assocs) :
    (q, tid) ∈ s.assocs ∨ (q = p ∧ tid = t.id) := by
  revert h
  unfold AssociateTagWithProject
  dsimp only
  split
  · exact fun h => Or.inl h
  · split
    · exact fun h => Or.inl h
    · intro h
      rcases List.mem_append.mp h with h | h
      · exact Or.inl h
      · simp at h
        exact Or.inr ⟨h.1, h.2⟩

theorem associate_assocs_mono {o : Oracle} {p : Nat} {t : Tag} {s : RepoState}
    {pr : Nat × Nat} (h : pr ∈ s.assocs) :
    pr ∈ (AssociateTagWithProject o p t s).2.assocs := by
  unfold AssociateTagWithProject
  dsimp only
  split
  · exact h
  · split
    · exact h
    · exact List.mem_append_left _ h

theorem clearProjectTags_tags (o : Oracle) (p : Nat) (s : RepoState) :
    (ClearProjectTags o p s).2.tags = s.tags := by
  unfold ClearProjectTags
  dsimp only
  split <;> rfl

theorem clearProjectTags_assocs_of_ok {o : Oracle} {p : Nat} {s : RepoState}
    (h : o.clearErr p s = none) :
    (ClearProjectTags o p s).2.assocs = s.assocs.filter (fun a => a.1 != p) := by
  unfold ClearProjectTags
  dsimp only
  split
  · rename_i e he
    rw [h] at he
    exact absurd he (by simp)
  · rfl

/-! Lemmas about the shared per-tag loop. -/

theorem TagsWF_congr {s s' : RepoState} (ht : s'.tags = s.tags)
    (hn : s'.nextId = s.nextId) (h : TagsWF s) : TagsWF s' := by
  unfold TagsWF at *
  rw [ht, hn]
  exact h

theorem tagLoop_tags_sub (o : Oracle) (p : Nat) (ns : List String) (s : RepoState) :
    ∃ l, (tagLoop o p ns s).tags = s.tags ++ l := by
  induction ns generalizing s with
  | nil => exact ⟨[], (List.append_nil _).symm⟩
  | cons n ns ih =>
    rw [tagLoop]
    obtain ⟨l0, h0⟩ := findOrCreateTag_tags_sub o n s
    rcases hfc : FindOrCreateTag o n s with ⟨r, s1⟩
    rw [hfc] at h0
    cases r with
    | none =>
      dsimp only
      obtain ⟨l1, h1⟩ := ih s1
      exact ⟨l0 ++ l1, by rw [h1, h0, List.append_assoc]⟩
    | some t =>
      dsimp only
      obtain ⟨l1, h1⟩ := ih (AssociateTagWithProject o p t s1).2
      exact ⟨l0 ++ l1, by rw [h1, associate_tags, h0, List.append_assoc]⟩

theorem tagLoop_log_sub (o : Oracle) (p : Nat) (ns : List String) (s : RepoState) :
    ∃ l, (tagLoop o p ns s).log = s.log ++ l := by
  induction ns generalizing s with
  | nil => exact ⟨[], (List.append_nil _).symm⟩
  | cons n ns ih =>
    rw [tagLoop]
    have h0 := findOrCreateTag_log o n s
    rcases hfc : FindOrCreateTag o n s with ⟨r, s1⟩
    rw [hfc] at h0
    cases r with
    | none =>
      dsimp only
      dsimp only at h0
      obtain ⟨l1, h1⟩ := ih s1
      exact ⟨[Event.findOrCreate n] ++ l1, by rw [h1, h0, List.append_assoc]⟩
    | some t =>
      dsimp only
      dsimp only at h0
      obtain ⟨l1, h1⟩ := ih (AssociateTagWithProject o p t s1).2
      refine ⟨[Event.findOrCreate n] ++ [Event.associate p t.id] ++ l1, ?_⟩
      rw [h1, associate_log, h0]
      simp

theorem tagLoop_logs_names (o : Oracle) (p : Nat) (ns : List String) (s : RepoState) :
    ∀ n ∈ ns, Event.findOrCreate n ∈ (tagLoop o p ns s).log := by
  induction ns generalizing s with
  | nil => intro n hn; simp at hn
  | cons m ns ih =>
    intro n hn
    rw [tagLoop]
    have h0 := findOrCreateTag_log o m s
    rcases hfc : FindOrCreateTag o m s with ⟨r, s1⟩
    rw [hfc] at h0
    dsimp only at h0
    rcases List.mem_cons.mp hn with rfl | hn'
    · have hmem1 : Event.findOrCreate n ∈ s1.log := by
        rw [h0]; simp
      cases r with
      | none =>
        dsimp only
        obtain ⟨l1, h1⟩ := tagLoop_log_sub o p ns s1
        rw [h1]
        exact List.mem_append_left _ hmem1
      | some t =>
        dsimp only
        obtain ⟨l1, h1⟩ := tagLoop_log_sub o p ns (AssociateTagWithProject o p t s1).2
        rw [h1, associate_log]
        exact List.mem_append_left _ (List.mem_append_left _ hmem1)
    · cases r with
      | none => exact ih s1 n hn'
      | some t => exact ih (AssociateTagWithProject o p t s1).2 n hn'

theorem tagLoop_assoc_sound (o : Oracle) (p : Nat) (ns : List String) (s : RepoState)
    {q tid : Nat} (h : (q, tid) ∈ (tagLoop o p ns s).assocs) :
    (q, tid) ∈ s.assocs ∨
      (q = p ∧ ∃ t, t ∈ (tagLoop o p ns s).tags ∧ tid = t.id ∧ t.name ∈ ns) := by
  induction ns generalizing s with
  | nil => exact Or.inl h
  | cons n ns ih =>
    rw [tagLoop] at h ⊢
    have hassoc := findOrCreateTag_assocs o n s
    have hcanon := @findOrCreateTag_some_canon o n s
    rcases hfc : FindOrCreateTag o n s with ⟨r, s1⟩
    rw [hfc] at h hassoc hcanon
    dsimp only at h hassoc hcanon ⊢
    cases r with
    | none =>
      rcases ih s1 h with h' | ⟨hq, t, htmem, htid, htn⟩
      · rw [hassoc] at h'
        exact Or.inl h'
      · exact Or.inr ⟨hq, t, htmem, htid, List.mem_cons_of_mem _ htn⟩
    | some t =>
      rcases ih (AssociateTagWithProject o p t s1).2 h with h' | ⟨hq, t', htmem, htid, htn⟩
      · rcases associate_assocs_sub h' with h'' | ⟨hq, htid⟩
        · rw [hassoc] at h''
          exact Or.inl h''
        · refine Or.inr ⟨hq, t, ?_, htid, ?_⟩
          · obtain ⟨l1, h1⟩ := tagLoop_tags_sub o p ns (AssociateTagWithProject o p t s1).2
            rw [h1, associate_tags]
            apply List.mem_append_left
            have := (hcanon rfl).2
            exact List.mem_of_find?_eq_some this
          · have := (hcanon rfl).1
            rw [this]
            exact List.mem_cons_self _ _
      · exact Or.inr ⟨hq, t', htmem, htid, List.mem_cons_of_mem _ htn⟩

theorem tagLoop_preserves (o : Oracle) (p : Nat) (ns : List String) :
    ∀ s : RepoState, TagsWF s → CanonAssocs s p →
      TagsWF (tagLoop o p ns s) ∧ CanonAssocs (tagLoop o p ns s) p := by
  induction ns with
  | nil => exact fun s hwf hca => ⟨hwf, hca⟩
  | cons n ns ih =>
    intro s hwf hca
    rw [tagLoop]
    have hwf1 := @findOrCreateTag_wf o n s hwf
    have hassoc := findOrCreateTag_assocs o n s
    have hcanon := @findOrCreateTag_some_canon o n s
    have hstable := @findOrCreateTag_canon_stable o n s
    rcases hfc : FindOrCreateTag o n s with ⟨r, s1⟩
    rw [hfc] at hwf1 hassoc hcanon hstable
    dsimp only at hwf1 hassoc hcanon hstable ⊢
    have hca1 : CanonAssocs s1 p := by
      intro tid htid
      rw [hassoc] at htid
      obtain ⟨t, htc, htid'⟩ := hca tid htid
      exact ⟨t, hstable htc, htid'⟩
    cases r with
    | none => exact ih s1 hwf1 hca1
    | some t =>
      apply ih
      · exact TagsWF_congr (associate_tags o p t s1) (associate_nextId o p t s1) hwf1
      · intro tid htid
        rcases associate_assocs_sub htid with h' | ⟨_, htid'⟩
        · obtain ⟨t', htc, htid''⟩ := hca1 tid h'
          refine ⟨t', ?_, htid''⟩
          unfold canonIn at htc ⊢
          rw [associate_tags]
          exact htc
        · refine ⟨t, ?_, htid'.symm⟩
          unfold canonIn at hcanon ⊢
          rw [associate_tags]
          exact (hcanon rfl).2

/-- With well-formed tag ids, a project whose associated tags are all
canonical rows has pairwise-distinct associated tag names. -/
theorem nodup_projTagNames {s : RepoState} {p : Nat}
    (hwf : TagsWF s) (hca : CanonAssocs s p) : (projTagNames s p).Nodup := by
  unfold projTagNames
  have hndids : (s.tags.map Tag.id).Nodup := hwf.2
  have hnd : s.tags.Nodup := List.Nodup.of_map _ hndids
  have hlnd : (s.tags.filter (fun t => decide ((p, t.id) ∈ s.assocs))).Nodup :=
    List.Nodup.sublist (List.filter_sublist _) hnd
  apply List.Nodup.map_on ?_ hlnd
  intro x hx y hy hname
  have hx' := List.mem_filter.mp hx
  have hy' := List.mem_filter.mp hy
  have hxa : (p, x.id) ∈ s.assocs := by simpa using hx'.2
  have hya : (p, y.id) ∈ s.assocs := by simpa using hy'.2
  obtain ⟨tx, htxc, htxid⟩ := hca x.id hxa
  obtain ⟨ty, htyc, htyid⟩ := hca y.id hya
  have htxmem : tx ∈ s.tags := List.mem_of_find?_eq_some htxc
  have htymem : ty ∈ s.tags := List.mem_of_find?_eq_some htyc
  have hxtx : x = tx := List.inj_on_of_nodup_map hndids hx'.1 htxmem htxid.symm
  have hyty : y = ty := List.inj_on_of_nodup_map hndids hy'.1 htymem htyid.symm
  subst hxtx
  subst hyty
  unfold canonIn at htxc htyc
  rw [← hname] at htyc
  rw [htxc] at htyc
  exact Option.some_inj.mp htyc

/-! Small helper lemmas about the use-case layer. -/

theorem updateProjectRepo_tags (o : Oracle) (p : Nat) (s : RepoState) :
    (UpdateProject o p s).2.tags = s.tags := by
  unfold UpdateProject
  dsimp only
  split <;> rfl

theorem updateProjectRepo_assocs (o : Oracle) (p : Nat) (s : RepoState) :
    (UpdateProject o p s).2.assocs = s.assocs := by
  unfold UpdateProject
  dsimp only
  split <;> rfl

theorem not_mem_filter_fst_ne {tid p : Nat} {l : List (Nat × Nat)} :
    (p, tid) ∉ l.filter (fun a => a.1 != p) := by
  intro h
  have h2 := (List.mem_filter.mp h).2
  simp at h2

/-! Claim theorems about tag parsing and reconciliation. -/

/-- C2, counterexample: with form field `" go ,"`, the handler passes the
comma-split pieces `" go "` and `""` verbatim to find-or-create: a tag whose
name keeps the surrounding spaces and a tag with empty name are looked up,
created and associated (tag id 1 is the empty-named tag), contradicting both
the trimming and the empty-skipping the claim describes; the spec-worded
parsing would have produced just `["go"]`. -/
theorem handler_tags_counterexample :
    splitTagNames " go ," = [" go ", ""] ∧
    specSplitTagNames " go ," = ["go"] ∧
    (Handler.CreateProject noFailOracle 1 " go ," emptyState).2.tags.map Tag.name =
      [" go ", ""] ∧
    Event.findOrCreate "" ∈ (Handler.CreateProject noFailOracle 1 " go ," emptyState).2.log ∧
    (1, 1) ∈ (Handler.CreateProject noFailOracle 1 " go ," emptyState).2.assocs := by
  decide

/-- C2 (amended): the candidate names handed to find-or-create are exactly the
comma-split pieces of the `tags` form field, untrimmed and with empty pieces
kept: whenever the project insert succeeds, every comma-split piece — empty or
whitespace-padded included — receives a find-or-create call. -/
theorem handler_tags_amended (o : Oracle) (p : Nat) (tagsStr : String)
    (s : RepoState) (h : o.createProjectErr p s = none) :
    ∀ n ∈ splitTagNames tagsStr,
      Event.findOrCreate n ∈ (Handler.CreateProject o p tagsStr s).2.log := by
  intro n hn
  unfold Handler.CreateProject ProjectUseCase.CreateProject GormProjectRepository.CreateProject
  dsimp only
  rw [h]
  dsimp only
  exact tagLoop_logs_names o p _ _ n hn

/-- C2 (amended), witness: the empty piece of `" go ,"` is looked up. -/
theorem handler_tags_amended_witness :
    noFailOracle.createProjectErr 1 emptyState = none ∧
    Event.findOrCreate "" ∈ (Handler.CreateProject noFailOracle 1 " go ," emptyState).2.log :=
  ⟨rfl, handler_tags_amended noFailOracle 1 " go ," emptyState rfl "" (by decide)⟩

/-- C3: when persisting the project itself succeeds, `CreateProject` (and
`UpdateProject` after a successful save) returns success for every failure
pattern of the per-tag find-or-create/associate calls (the oracle is
arbitrary, so any subset of tag operations may fail), and no tag name is
abandoned: each name's find-or-create call is still issued. -/
theorem create_update_tolerate_tag_failures (o : Oracle) (p : Nat)
    (names : List String) (s : RepoState) :
    (o.createProjectErr p s = none →
      (ProjectUseCase.CreateProject o p names s).1 = none ∧
      ∀ n ∈ names,
        Event.findOrCreate n ∈ (ProjectUseCase.CreateProject o p names s).2.log) ∧
    (o.updateProjectErr p (ClearProjectTags o p s).2 = none →
      (ProjectUseCase.UpdateProject o p names s).1 = none ∧
      ∀ n ∈ names,
        Event.findOrCreate n ∈ (ProjectUseCase.UpdateProject o p names s).2.log) := by
  constructor
  · intro h
    unfold ProjectUseCase.CreateProject GormProjectRepository.CreateProject
    dsimp only
    rw [h]
    dsimp only
    exact ⟨rfl, tagLoop_logs_names o p names _⟩
  · intro h
    unfold ProjectUseCase.UpdateProject GormProjectRepository.UpdateProject
    dsimp only
    rw [h]
    dsimp only
    exact ⟨rfl, tagLoop_logs_names o p names _⟩

/-- C3, witness: under an oracle failing exactly the find-or-create of "go",
creating a project with tags ["go", "py"] still succeeds, both names are
processed, and only "py" ends up stored. -/
theorem create_update_tolerate_tag_failures_witness :
    goFailOracle.createProjectErr 1 emptyState = none ∧
    (ProjectUseCase.CreateProject goFailOracle 1 ["go", "py"] emptyState).1 = none ∧
    Event.findOrCreate "go" ∈
      (ProjectUseCase.CreateProject goFailOracle 1 ["go", "py"] emptyState).2.log ∧
    (ProjectUseCase.CreateProject goFailOracle 1 ["go", "py"] emptyState).2.tags.map
      Tag.name = ["py"] :=
  ⟨rfl,
   ((create_update_tolerate_tag_failures goFailOracle 1 ["go", "py"] emptyState).1 rfl).1,
   ((create_update_tolerate_tag_failures goFailOracle 1 ["go", "py"] emptyState).1 rfl).2
     "go" (by decide),
   by decide⟩

/-- C5: on update, after a successful clear of the project's associations,
(1) no tag row is ever deleted (every pre-existing tag survives, orphaned or
not), (2) every remaining association of the project points at a stored tag
whose name is in the new list (all old associations are gone unless re-added),
and (3) with an empty tag list the project ends with no associations and the
tag table is untouched. -/
theorem updateProject_replace (o : Oracle) (p : Nat) (names : List String)
    (s : RepoState) (hclear : o.clearErr p s = none) :
    (∀ t ∈ s.tags, t ∈ (ProjectUseCase.UpdateProject o p names s).2.tags) ∧
    (∀ tid, (p, tid) ∈ (ProjectUseCase.UpdateProject o p names s).2.assocs →
      ∃ t, t ∈ (ProjectUseCase.UpdateProject o p names s).2.tags ∧ tid = t.id ∧
        t.name ∈ names) ∧
    (names = [] →
      (∀ tid, (p, tid) ∉ (ProjectUseCase.UpdateProject o p names s).2.assocs) ∧
      (ProjectUseCase.UpdateProject o p names s).2.tags = s.tags) := by
  unfold ProjectUseCase.UpdateProject
  dsimp only
  have hctags := clearProjectTags_tags o p s
  have hcassocs := clearProjectTags_assocs_of_ok hclear
  have hutags := updateProjectRepo_tags o p (ClearProjectTags o p s).2
  have huassocs := updateProjectRepo_assocs o p (ClearProjectTags o p s).2
  rcases hup : UpdateProject o p (ClearProjectTags o p s).2 with ⟨r2, s2⟩
  rw [hup] at hutags huassocs
  dsimp only at hutags huassocs
  have hs2tags : s2.tags = s.tags := by rw [hutags, hctags]
  have hs2assocs : s2.assocs = s.assocs.filter (fun a => a.1 != p) := by
    rw [huassocs, hcassocs]
  cases r2 with
  | some e =>
    dsimp only
    refine ⟨fun t ht => by rw [hs2tags]; exact ht, ?_, ?_⟩
    · intro tid htid
      rw [hs2assocs] at htid
      exact absurd htid not_mem_filter_fst_ne
    · intro _
      refine ⟨fun tid htid => ?_, hs2tags⟩
      rw [hs2assocs] at htid
      exact absurd htid not_mem_filter_fst_ne
  | none =>
    dsimp only
    refine ⟨?_, ?_, ?_⟩
    · intro t ht
      obtain ⟨l, hl⟩ := tagLoop_tags_sub o p names s2
      rw [hl, hs2tags]
      exact List.mem_append_left _ ht
    · intro tid htid
      rcases tagLoop_assoc_sound o p names s2 htid with h' | ⟨_, t, htm, hti, htn⟩
      · rw [hs2assocs] at h'
        exact absurd h' not_mem_filter_fst_ne
      · exact ⟨t, htm, hti, htn⟩
    · rintro rfl
      rw [tagLoop]
      refine ⟨fun tid htid => ?_, hs2tags⟩
      rw [hs2assocs] at htid
      exact absurd htid not_mem_filter_fst_ne

/-- C5, witness: replacing with the empty list on a store where project 1 is
associated with tag "go" clears the association, keeps the tag row. -/
theorem updateProject_replace_witness :
    noFailOracle.clearErr 1 sampleState = none ∧
    (∀ tid, (1, tid) ∉ (ProjectUseCase.UpdateProject noFailOracle 1 [] sampleState).2.assocs) ∧
    (ProjectUseCase.UpdateProject noFailOracle 1 [] sampleState).2.tags = sampleState.tags :=
  ⟨rfl,
   ((updateProject_replace noFailOracle 1 [] sampleState rfl).2.2 rfl).1,
   ((updateProject_replace noFailOracle 1 [] sampleState rfl).2.2 rfl).2⟩

/-- C6: from any well-formed store in which the project has no tag
associations yet (a fresh project on create, or an update after a successful
clear), a tag-reconciliation pass — any tag-name list, duplicates included,
and any failure pattern — leaves at most one association per distinct
(case-sensitively matched) tag name; and so does a second pass run on top of
the first, in particular a repeat of the identical list. -/
theorem reconcile_nodup_tagNames (o o' : Oracle) (p : Nat)
    (names names' : List String) (s : RepoState)
    (hwf : TagsWF s) (h0 : ∀ tid, (p, tid) ∉ s.assocs) :
    (projTagNames (tagLoop o p names s) p).Nodup ∧
    (projTagNames (tagLoop o' p names' (tagLoop o p names s)) p).Nodup := by
  have hca : CanonAssocs s p := fun tid htid => absurd htid (h0 tid)
  obtain ⟨hwf1, hca1⟩ := tagLoop_preserves o p names s hwf hca
  obtain ⟨hwf2, hca2⟩ := tagLoop_preserves o' p names' _ hwf1 hca1
  exact ⟨nodup_projTagNames hwf1 hca1, nodup_projTagNames hwf2 hca2⟩

/-- C6, witness: reconciling ["go", "go", "py"] twice from the empty store
yields the duplicate-free name set, concretely ["go", "py"]. -/
theorem reconcile_nodup_tagNames_witness :
    TagsWF emptyState ∧
    (projTagNames (tagLoop noFailOracle 1 ["go", "go", "py"] emptyState) 1).Nodup ∧
    (projTagNames (tagLoop noFailOracle 1 ["go", "go", "py"]
      (tagLoop noFailOracle 1 ["go", "go", "py"] emptyState)) 1).Nodup ∧
    projTagNames (tagLoop noFailOracle 1 ["go", "go", "py"]
      (tagLoop noFailOracle 1 ["go", "go", "py"] emptyState)) 1 = ["go", "py"] :=
  ⟨⟨by simp [emptyState], by simp [emptyState]⟩,
   (reconcile_nodup_tagNames noFailOracle noFailOracle 1 ["go", "go", "py"]
     ["go", "go", "py"] emptyState ⟨by simp [emptyState], by simp [emptyState]⟩
     (fun tid h => by simp [emptyState] at h)).1,
   (reconcile_nodup_tagNames noFailOracle noFailOracle 1 ["go", "go", "py"]
     ["go", "go", "py"] emptyState ⟨by simp [emptyState], by simp [emptyState]⟩
     (fun tid h => by simp [emptyState] at h)).2,
   by decide⟩

/-- C7: when the project insert itself fails, `CreateProject` returns that
very error and performs no tag operation: tag rows and associations are
untouched and the only repository call logged is the failed project insert. -/
theorem createProject_propagates_failure (o : Oracle) (p : Nat)
    (names : List String) (s : RepoState) (e : Err)
    (h : o.createProjectErr p s = some e) :
    (ProjectUseCase.CreateProject o p names s).1 = some e ∧
    (ProjectUseCase.CreateProject o p names s).2.tags = s.tags ∧
    (ProjectUseCase.CreateProject o p names s).2.assocs = s.assocs ∧
    (ProjectUseCase.CreateProject o p names s).2.log = s.log ++ [Event.createProj p] := by
  unfold ProjectUseCase.CreateProject GormProjectRepository.CreateProject
  dsimp only
  rw [h]
  dsimp only
  exact ⟨rfl, rfl, rfl, rfl⟩

/-- C7, witness: with a failing project insert, the error comes back and the
store's tag data is untouched. -/
theorem createProject_propagates_failure_witness :
    createFailOracle.createProjectErr 1 emptyState = some "db down" ∧
    ((ProjectUseCase.CreateProject createFailOracle 1 ["go"] emptyState).1 = some "db down" ∧
      (ProjectUseCase.CreateProject createFailOracle 1 ["go"] emptyState).2.tags =
        emptyState.tags ∧
      (ProjectUseCase.CreateProject createFailOracle 1 ["go"] emptyState).2.assocs =
        emptyState.assocs ∧
      (ProjectUseCase.CreateProject createFailOracle 1 ["go"] emptyState).2.log =
        emptyState.log ++ [Event.createProj 1]) :=
  ⟨rfl, createProject_propagates_failure createFailOracle 1 ["go"] emptyState "db down" rfl⟩

/-! C9: tag find-or-create under concurrency. -/

/-- The serial `FindOrCreateTag` call is the `SELECT` step followed, on a
miss, by the `INSERT` step: the step model used for the interleaving is the
embedded repository operation itself. -/
theorem findOrCreateTag_as_steps (o : Oracle) (n : String) (s : RepoState)
    (h : o.findOrCreateErr n s = none) :
    (FindOrCreateTag o n s).2.tags =
      (if (findTagStep n s).isNone then insertTagStep n s else s).tags ∧
    (FindOrCreateTag o n s).2.nextId =
      (if (findTagStep n s).isNone then insertTagStep n s else s).nextId := by
  unfold FindOrCreateTag findTagStep insertTagStep
  dsimp only
  rw [h]
  dsimp only
  rcases hf : s.tags.find? (fun t => t.name == n) with _ | t <;>
    simp [hf]

/-- C9, counterexample: from a store holding no tag named "go", two
concurrent find-or-create calls for "go" interleaved as
SELECT-SELECT-INSERT-INSERT persist TWO tag rows named "go": `FirstOrCreate`
is not atomic and domain/models.go declares no uniqueness constraint on
`tags.name`, so nothing stops the second insert. -/
theorem raced_findOrCreate_counterexample :
    countTagsNamed emptyState "go" = 0 ∧
    countTagsNamed (racedFindOrCreate "go" emptyState) "go" = 2 ∧
    (racedFindOrCreate "go" emptyState).tags = [⟨0, "go"⟩, ⟨1, "go"⟩] := by
  decide

/-- C9 (amended): serially — without interleaving — find-or-create is
idempotent: starting from a store with no tag of the given name, two
successive calls persist exactly one tag row with that name (the second call
finds the row the first one created); only a concurrent interleaving of the
non-atomic SELECT/INSERT pair can persist duplicates, since the storage layer
enforces no uniqueness on tag names. -/
theorem serial_findOrCreate_once (o o' : Oracle) (n : String) (s : RepoState)
    (h0 : countTagsNamed s n = 0)
    (h1 : o.findOrCreateErr n s = none)
    (h2 : o'.findOrCreateErr n (FindOrCreateTag o n s).2 = none) :
    countTagsNamed (FindOrCreateTag o' n (FindOrCreateTag o n s).2).2 n = 1 := by
  have hfil : s.tags.filter (fun t => t.name == n) = [] := by
    unfold countTagsNamed at h0
    exact List.length_eq_zero.mp h0
  have hf : s.tags.find? (fun t => t.name == n) = none := by
    rw [List.find?_eq_none]
    intro x hx hbx
    have hmem : x ∈ s.tags.filter (fun t => t.name == n) :=
      List.mem_filter.mpr ⟨hx, hbx⟩
    rw [hfil] at hmem
    simp at hmem
  have hs1 : (FindOrCreateTag o n s).2.tags = s.tags ++ [⟨s.nextId, n⟩] := by
    unfold FindOrCreateTag
    dsimp only
    rw [h1]
    dsimp only
    rw [hf]
  have hf2 : (FindOrCreateTag o n s).2.tags.find? (fun t => t.name == n) =
      some ⟨s.nextId, n⟩ := by
    rw [hs1, List.find?_append, hf]
    simp
  have hs2 : (FindOrCreateTag o' n (FindOrCreateTag o n s).2).2.tags =
      (FindOrCreateTag o n s).2.tags := by
    set s1 := (FindOrCreateTag o n s).2
    unfold FindOrCreateTag
    dsimp only
    rw [h2]
    dsimp only
    rw [hf2]
  rw [countTagsNamed, hs2, hs1, List.filter_append, hfil]
  simp

/-- C9 (amended), witness: two serial find-or-create calls for "go" from the
empty store leave exactly one "go" row. -/
theorem serial_findOrCreate_once_witness :
    countTagsNamed emptyState "go" = 0 ∧
    countTagsNamed
      (FindOrCreateTag noFailOracle "go"
        (FindOrCreateTag noFailOracle "go" emptyState).2).2 "go" = 1 :=
  ⟨by decide, serial_findOrCreate_once noFailOracle noFailOracle "go" emptyState
    (by decide) rfl rfl⟩

end DevSearch
